import Mathlib

/-!
# Verification of the medicine-rag hybrid search core

A shallow embedding of the hybrid retrieval / rank-fusion / section-grouping
pipeline of `medicine-rag` (Go).  Scores are modelled over `ℚ`.

Sources embedded:
* `core/mcp/search.go` — constants and the RRF fusion loop, as shown in the
  repository `README.md` (`hybridSearch`, `topK`, `GroupBySectionWithRank`);
* the specification, for the parts of `search.go` whose body is not present
  in the available sources (tie-breaking inside `topK`, section ordering,
  result assembly and the `Run` streaming wrapper).  Those definitions carry
  a `Modelled from the spec:` doc comment.
-/

namespace MedicineRag

/-- Go `db.ChunkModel`: one retrievable window of a source document. -/
structure ChunkModel where
  id : String
  sectionId : String
  windowIndex : Int
  content : String
  title : String
  attribution : String
  metadata : List (String × String)
  deriving DecidableEq, Repr

/-- Go `schema.ToolResultChunk`: the externally visible result unit. -/
structure ResultUnit where
  sentences : List String
  attribution : String
  title : String
  metadata : List (String × String)
  toolName : String
  id : String
  error : String
  deriving DecidableEq, Repr

/-! ## Constants (from `search.go`, quoted in README.md) -/

/-- RRF dampening constant (`rrfK = 60`). -/
def rrfK : ℚ := 60

/-- Per-engine weight of the text backend (`textSearchWeight = 1.0`). -/
def textSearchWeight : ℚ := 1

/-- Per-engine weight of the vector backend (`vectorSearchWeight = 1.0`). -/
def vectorSearchWeight : ℚ := 1

/-- Number of fused candidates kept (`maxChunks = 20`). -/
def maxChunks : Nat := 20

/-! ## Rank collection and RRF fusion (`hybridSearch`) -/

/-- Rank collection (`collectTextSearchRanks` / `collectVectorSearchRanks`): a map
candidate ID → 1-based rank by iterating the backend's result list
(`for i, id := range ids { ranks[id] = i + 1 }`); modelled as the
association list of `(id, position + 1)` pairs starting at offset `k`. -/
def collectRanksFrom : List String → Nat → List (String × Nat)
  | [], _ => []
  | d :: rest, k => (d, k + 1) :: collectRanksFrom rest (k + 1)

/-- The rank map of one backend's result list. -/
def collectRanks (ids : List String) : List (String × Nat) :=
  collectRanksFrom ids 0

/-- One pass of the RRF accumulation loop of `hybridSearch`:
`for id, r := range ranks { combined[id] += w / float64(rrfK+r) }`,
over a total score map (`combined` reads as `0` for absent keys). -/
def applyRRF (w : ℚ) (ranks : List (String × Nat)) (m : String → ℚ) : String → ℚ :=
  ranks.foldl (fun acc p => fun d => if d = p.1 then acc d + w / (rrfK + (p.2 : ℚ)) else acc d) m

/-- The fused score map of `hybridSearch`: text contributions first
(`combined[id] = textSearchWeight / float64(rrfK+r)` over the zero map),
then vector contributions added on top. -/
def combinedScores (textIds vecIds : List String) : String → ℚ :=
  applyRRF vectorSearchWeight (collectRanks vecIds)
    (applyRRF textSearchWeight (collectRanks textIds) (fun _ => 0))

/-- The 1-based rank of a candidate in one backend's result list
(`none` when the backend did not rank it). -/
def rankOf : List String → String → Option Nat
  | [], _ => none
  | a :: rest, d => if a = d then some 1 else (rankOf rest d).map (· + 1)

/-- The contribution `w / (rrfK + rank)` of one backend to a candidate's
fused score; zero when the backend did not rank the candidate. -/
def contribution (w : ℚ) (ids : List String) (d : String) : ℚ :=
  match rankOf ids d with
  | some r => w / (rrfK + (r : ℚ))
  | none => 0

/-- The smaller of a candidate's individual backend ranks (used only for
tie-breaking, so the value for a candidate ranked by neither backend is
irrelevant; `0` is returned there). -/
def minBackendRank (textIds vecIds : List String) (d : String) : Nat :=
  match rankOf textIds d, rankOf vecIds d with
  | some a, some b => min a b
  | some a, none => a
  | none, some b => b
  | none, none => 0

/-- Modelled from the spec: the comparison used by `topK` (whose body is not
in the available sources) — descending fused score, ties broken by the
smaller individual backend rank, then by candidate ID lexicographically. -/
def fusedLE (textIds vecIds : List String) (a b : String) : Bool :=
  let sa := combinedScores textIds vecIds a
  let sb := combinedScores textIds vecIds b
  if sa = sb then
    let ra := minBackendRank textIds vecIds a
    let rb := minBackendRank textIds vecIds b
    if ra = rb then decide (a ≤ b) else decide (ra < rb)
  else decide (sb < sa)

/-- The `topK(combined, maxChunks)` step: the candidates appearing in either backend's
list, ordered by `fusedLE`, truncated to `maxChunks`. -/
def topCandidates (textIds vecIds : List String) : List String :=
  ((textIds ++ vecIds).dedup.mergeSort (fusedLE textIds vecIds)).take maxChunks

/-- Lookup in the candidate cache populated by the dispatcher. -/
def findChunk (cache : List ChunkModel) (d : String) : Option ChunkModel :=
  cache.find? (fun c => c.id == d)

/-- The fused top-`maxChunks` chunk list produced by `hybridSearch`, given
the two backends' ranked hit lists (both already fetched, forming the
candidate cache). -/
def fusedChunks (textHits vecHits : List ChunkModel) : List ChunkModel :=
  (topCandidates (textHits.map (·.id)) (vecHits.map (·.id))).filterMap
    (findChunk (textHits ++ vecHits))

/-! ## Section grouping (`GroupBySectionWithRank`) -/

/-- Base positional weight (`W = 1.0`). -/
def W : ℚ := 1

/-- Bonus factor for adjacent windows (`AdjacencyBonus = 0.15`). -/
def AdjacencyBonus : ℚ := 15 / 100

/-- Diminishing-returns factor (`Lambda = 0.10`). -/
def Lambda : ℚ := 1 / 10

/-- Whether a neighbouring window (index ±1, same section) of `ch` is also
present among the fused candidates. -/
def hasAdjacentWindow (chunks : List ChunkModel) (ch : ChunkModel) : Bool :=
  chunks.any (fun c => c.sectionId == ch.sectionId &&
    (c.windowIndex == ch.windowIndex + 1 || c.windowIndex == ch.windowIndex - 1))

/-- Positional weight of the chunk at fused rank `rank` (1-based):
`w = W / rank^P` with decay exponent `P = 1` (harmonic decay, the
reference behaviour). -/
def chunkWeight (rank : Nat) : ℚ := W / (rank : ℚ)

/-- The accumulation loop of `GroupBySectionWithRank` restricted to one
section: walking the fused chunks from position `i`, each member of
section `s` adds `w`, plus `AdjacencyBonus * w` when it has an adjacent
window among the fused candidates. -/
def rawSectionScoreFrom (allChunks : List ChunkModel) (s : String) :
    List ChunkModel → Nat → ℚ
  | [], _ => 0
  | ch :: rest, i =>
    (if ch.sectionId = s then
      chunkWeight (i + 1) +
        (if hasAdjacentWindow allChunks ch then AdjacencyBonus * chunkWeight (i + 1) else 0)
     else 0) + rawSectionScoreFrom allChunks s rest (i + 1)

/-- The raw (pre-diminishing) score of section `s` over a fused chunk list. -/
def rawSectionScore (chunks : List ChunkModel) (s : String) : ℚ :=
  rawSectionScoreFrom chunks s chunks 0

/-- The number of fused chunks belonging to section `s`. -/
def memberCount (chunks : List ChunkModel) (s : String) : Nat :=
  (chunks.filter (fun c => c.sectionId == s)).length

/-- The diminishing-returns step: `if count > 1 { score /= (1 + Lambda*(count-1)) }`. -/
def applyDiminishing (raw : ℚ) (count : Nat) : ℚ :=
  if 1 < count then raw / (1 + Lambda * ((count : ℚ) - 1)) else raw

/-- The final score of section `s` over a fused chunk list. -/
def finalSectionScore (chunks : List ChunkModel) (s : String) : ℚ :=
  applyDiminishing (rawSectionScore chunks s) (memberCount chunks s)

/-- Modelled from the spec: section ordering — descending final score; the
sort is stable, so equal scores keep their first-appearance order
(the leading member's fused rank), a deterministic secondary key. -/
def sectionLE (chunks : List ChunkModel) (s t : String) : Bool :=
  decide (finalSectionScore chunks t ≤ finalSectionScore chunks s)

/-- The emitted section identifiers, in emission order. -/
def sectionOrder (chunks : List ChunkModel) : List String :=
  ((chunks.map (·.sectionId)).dedup).mergeSort (sectionLE chunks)

/-- The `GroupBySectionWithRank` output: the fused chunks grouped by section, sections
in descending final-score order, each group keeping its members in their
original fused order. -/
def GroupBySectionWithRank (chunks : List ChunkModel) : List (List ChunkModel) :=
  (sectionOrder chunks).map (fun s => chunks.filter (fun c => c.sectionId == s))

/-! ## Result assembly and the `Run` stream -/

/-- Modelled from the spec: metadata merge across a section's members. -/
def mergeMetadata (group : List ChunkModel) : List (String × String) :=
  group.foldl (fun acc c => acc ++ c.metadata) []

/-- Modelled from the spec: one `ResultUnit` per emitted section — the
members' contents as `sentences`, title/attribution/id from the leading
(highest fused rank) member, empty error. -/
def assembleUnit (group : List ChunkModel) : ResultUnit :=
  match group with
  | [] =>
    { sentences := [], attribution := "", title := "", metadata := [],
      toolName := "medicine-rag", id := "", error := "" }
  | lead :: _ =>
    { sentences := group.map (·.content), attribution := lead.attribution,
      title := lead.title, metadata := mergeMetadata group,
      toolName := "medicine-rag", id := lead.id, error := "" }

/-- Modelled from the spec: the terminal error unit emitted when both
backends fail. -/
def errorUnit (te ve : String) : ResultUnit :=
  { sentences := [], attribution := "", title := "", metadata := [],
    toolName := "medicine-rag", id := "",
    error := "text search failed: " ++ te ++ "; vector search failed: " ++ ve }

/-- Modelled from the spec: `SearchTool.Run` for one query execution, given
the outcome of each backend call (embedding failure is folded into the
vector backend's outcome).  If both backends fail, a single terminal error
unit is emitted; otherwise a failed backend's rank list is treated as
empty, the survivors are fused, grouped by section, and one unit per
section is emitted in section order. -/
def run (textRes vecRes : Except String (List ChunkModel)) : List ResultUnit :=
  match textRes, vecRes with
  | .error te, .error ve => [errorUnit te ve]
  | _, _ =>
    let textHits := textRes.toOption.getD []
    let vecHits := vecRes.toOption.getD []
    (GroupBySectionWithRank (fusedChunks textHits vecHits)).map assembleUnit

/-- Modelled from the spec: `Run` over a batch of query executions — each
query's units are emitted in sequence, then the stream closes. -/
def runBatch (inputs : List (Except String (List ChunkModel) × Except String (List ChunkModel))) :
    List ResultUnit :=
  (inputs.map (fun p => run p.1 p.2)).flatten

/-! ## Concrete sample data (used in witnesses and counterexamples) -/

/-- Sample chunk: section `S`, window 0. -/
def sampleS0 : ChunkModel := ⟨"a", "S", 0, "alpha", "Title", "Attr", []⟩

/-- Sample chunk: section `S`, window 1 (adjacent to `sampleS0`). -/
def sampleS1 : ChunkModel := ⟨"b", "S", 1, "beta", "Title", "Attr", []⟩

/-- Sample chunk: section `S`, window 5 (adjacent to no other sample). -/
def sampleS5 : ChunkModel := ⟨"b", "S", 5, "beta", "Title", "Attr", []⟩

/-- Sample chunk whose title and attribution are empty strings. -/
def sampleBare : ChunkModel := ⟨"a", "s", 0, "some content", "", "", []⟩

/-- Sample chunk with non-empty title and attribution. -/
def sampleGood : ChunkModel := ⟨"g", "s", 0, "good content", "Materia Medica", "Boericke", []⟩

/-- Sample backend failure message. -/
def sampleErr : String := "backend down"

/-! ## Lemmas about the RRF accumulation -/

theorem applyRRF_apply (w : ℚ) (ranks : List (String × Nat)) (m : String → ℚ) (d : String) :
    applyRRF w ranks m d =
      m d + ((ranks.filter (fun p => d == p.1)).map (fun p => w / (rrfK + (p.2 : ℚ)))).sum := by
  induction ranks generalizing m with
  | nil => simp [applyRRF]
  | cons p ps ih =>
    simp only [applyRRF, List.foldl_cons] at ih ⊢
    rw [ih]
    by_cases h : d = p.1
    · simp [h, List.filter_cons]
      ring
    · simp only [if_neg h, List.filter_cons]
      have : (d == p.1) = false := beq_eq_false_iff_ne.mpr h
      simp [this]

theorem filter_collectRanksFrom_of_not_mem (l : List String) (d : String) (k : Nat)
    (h : d ∉ l) :
    (collectRanksFrom l k).filter (fun p => d == p.1) = [] := by
  induction l generalizing k with
  | nil => simp [collectRanksFrom]
  | cons a rest ih =>
    simp only [List.mem_cons, not_or] at h
    have : (d == a) = false := beq_eq_false_iff_ne.mpr h.1
    simp [collectRanksFrom, List.filter_cons, this, ih _ h.2]

theorem filter_collectRanksFrom (l : List String) (d : String) (k : Nat) (h : l.Nodup) :
    (collectRanksFrom l k).filter (fun p => d == p.1) =
      (match rankOf l d with
       | some r => [(d, k + r)]
       | none => []) := by
  induction l generalizing k with
  | nil => simp [collectRanksFrom, rankOf]
  | cons a rest ih =>
    rw [List.nodup_cons] at h
    by_cases hd : a = d
    · subst hd
      simp only [collectRanksFrom, rankOf, if_pos rfl, List.filter_cons, beq_self_eq_true,
        if_true]
      rw [filter_collectRanksFrom_of_not_mem rest a (k + 1) h.1]
    · have hne : (d == a) = false := beq_eq_false_iff_ne.mpr (Ne.symm hd)
      simp only [collectRanksFrom, rankOf, if_neg hd, List.filter_cons, hne]
      rw [ih (k + 1) h.2]
      cases rankOf rest d with
      | none => simp
      | some r =>
        simp only [Option.map_some]
        have : k + 1 + r = k + (r + 1) := by omega
        simp [this]

/-- The per-candidate characterisation of the fused score map built by the
two accumulation loops of `hybridSearch`. -/
theorem combinedScores_eq (textIds vecIds : List String) (d : String)
    (ht : textIds.Nodup) (hv : vecIds.Nodup) :
    combinedScores textIds vecIds d =
      contribution textSearchWeight textIds d + contribution vectorSearchWeight vecIds d := by
  unfold combinedScores contribution collectRanks
  rw [applyRRF_apply, applyRRF_apply,
    filter_collectRanksFrom _ _ _ ht, filter_collectRanksFrom _ _ _ hv]
  cases rankOf textIds d <;> cases rankOf vecIds d <;>
    simp [Nat.zero_add]

theorem rankOf_eq_none_of_not_mem (l : List String) (d : String) (h : d ∉ l) :
    rankOf l d = none := by
  induction l with
  | nil => rfl
  | cons a rest ih =>
    simp only [List.mem_cons, not_or] at h
    simp [rankOf, Ne.symm h.1, ih h.2]

/-- C1: for every pair of backend rank lists (text and vector), the fused
score of every candidate `d` equals the sum, over the backends that ranked
`d`, of `w_e / (rrfK + rank_e(d))` with `rrfK = 60` and both weights `1.0`;
a candidate absent from a backend's list receives zero contribution from
that backend, and a candidate ranked 1st by text and 3rd by vector scores
`1/61 + 1/63`. -/
theorem rrf_fused_score_formula :
    (∀ textIds vecIds d, textIds.Nodup → vecIds.Nodup →
        combinedScores textIds vecIds d =
          contribution textSearchWeight textIds d +
            contribution vectorSearchWeight vecIds d) ∧
    (∀ (w : ℚ) (ids : List String) (d : String), d ∉ ids → contribution w ids d = 0) ∧
    combinedScores ["D", "B"] ["A", "C", "D"] "D" = 1 / 61 + 1 / 63 := by
  refine ⟨combinedScores_eq, ?_, ?_⟩
  · intro w ids d h
    simp [contribution, rankOf_eq_none_of_not_mem ids d h]
  · have h1 : rankOf ["D", "B"] "D" = some 1 := by decide
    have h2 : rankOf ["A", "C", "D"] "D" = some 3 := by decide
    rw [combinedScores_eq _ _ _ (by decide) (by decide)]
    norm_num [contribution, h1, h2, textSearchWeight, vectorSearchWeight, rrfK]

theorem rrf_fused_score_formula_witness :
    (combinedScores ["D", "B"] ["A", "C", "D"] "D" =
        contribution textSearchWeight ["D", "B"] "D" +
          contribution vectorSearchWeight ["A", "C", "D"] "D") ∧
    contribution textSearchWeight ["D", "B"] "Z" = 0 :=
  ⟨rrf_fused_score_formula.1 ["D", "B"] ["A", "C", "D"] "D" (by decide) (by decide),
   rrf_fused_score_formula.2.1 textSearchWeight ["D", "B"] "Z" (by decide)⟩

/-! ## The fusion ordering -/

theorem fusedLE_eq_true_iff (t v : List String) (a b : String) :
    fusedLE t v a b = true ↔
      (combinedScores t v b < combinedScores t v a ∨
        (combinedScores t v a = combinedScores t v b ∧
          (minBackendRank t v a < minBackendRank t v b ∨
            (minBackendRank t v a = minBackendRank t v b ∧ a ≤ b)))) := by
  unfold fusedLE
  by_cases h : combinedScores t v a = combinedScores t v b
  · by_cases h2 : minBackendRank t v a = minBackendRank t v b
    · simp [h, h2, lt_irrefl]
    · simp [h, h2, lt_irrefl]
  · have h3 : ¬ combinedScores t v b = combinedScores t v a := fun hx => h hx.symm
    simp [h, h3]

theorem fusedLE_trans (t v : List String) (a b c : String) :
    fusedLE t v a b → fusedLE t v b c → fusedLE t v a c := by
  intro h1 h2
  rw [fusedLE_eq_true_iff] at h1 h2 ⊢
  rcases h1 with h1 | ⟨he1, h1⟩
  · rcases h2 with h2 | ⟨he2, _⟩
    · exact Or.inl (lt_trans h2 h1)
    · exact Or.inl (he2 ▸ h1)
  · rcases h2 with h2 | ⟨he2, h2⟩
    · exact Or.inl (he1 ▸ h2)
    · refine Or.inr ⟨he1.trans he2, ?_⟩
      rcases h1 with h1 | ⟨hr1, h1⟩
      · rcases h2 with h2 | ⟨hr2, _⟩
        · exact Or.inl (lt_trans h1 h2)
        · exact Or.inl (hr2 ▸ h1)
      · rcases h2 with h2 | ⟨hr2, h2⟩
        · exact Or.inl (hr1 ▸ h2)
        · exact Or.inr ⟨hr1.trans hr2, le_trans h1 h2⟩

theorem fusedLE_total (t v : List String) (a b : String) :
    fusedLE t v a b || fusedLE t v b a := by
  rw [Bool.or_eq_true, fusedLE_eq_true_iff, fusedLE_eq_true_iff]
  rcases lt_trichotomy (combinedScores t v a) (combinedScores t v b) with h | h | h
  · exact Or.inr (Or.inl h)
  · rcases lt_trichotomy (minBackendRank t v a) (minBackendRank t v b) with h2 | h2 | h2
    · exact Or.inl (Or.inr ⟨h, Or.inl h2⟩)
    · rcases le_total a b with h3 | h3
      · exact Or.inl (Or.inr ⟨h, Or.inr ⟨h2, h3⟩⟩)
      · exact Or.inr (Or.inr ⟨h.symm, Or.inr ⟨h2.symm, h3⟩⟩)
    · exact Or.inr (Or.inr ⟨h.symm, Or.inl h2⟩)
  · exact Or.inl (Or.inl h)

/-- C2: rank fusion is deterministic and idempotent — two runs on identical
rank-list inputs give identical ordered top-`maxChunks` output — and equal-
score candidates are ordered by the smaller of their individual backend
ranks, then by candidate ID lexicographically. -/
theorem fusion_deterministic_and_tiebreak (textIds vecIds : List String) :
    topCandidates textIds vecIds = topCandidates textIds vecIds ∧
    (topCandidates textIds vecIds).length ≤ maxChunks ∧
    (topCandidates textIds vecIds).Pairwise (fun a b =>
      combinedScores textIds vecIds b < combinedScores textIds vecIds a ∨
        (combinedScores textIds vecIds a = combinedScores textIds vecIds b ∧
          (minBackendRank textIds vecIds a < minBackendRank textIds vecIds b ∨
            (minBackendRank textIds vecIds a = minBackendRank textIds vecIds b ∧ a ≤ b)))) := by
  refine ⟨rfl, ?_, ?_⟩
  · exact List.length_take_le maxChunks _
  · have hs := List.sorted_mergeSort (fusedLE_trans textIds vecIds)
      (fusedLE_total textIds vecIds) ((textIds ++ vecIds).dedup)
    have ht := hs.sublist (List.take_sublist maxChunks _)
    exact ht.imp (fun h => (fusedLE_eq_true_iff textIds vecIds _ _).mp h)

/-! ## Section ordering -/

theorem sectionLE_trans (chunks : List ChunkModel) (a b c : String) :
    sectionLE chunks a b → sectionLE chunks b c → sectionLE chunks a c := by
  simp only [sectionLE, decide_eq_true_eq]
  exact fun h1 h2 => le_trans h2 h1

theorem sectionLE_total (chunks : List ChunkModel) (a b : String) :
    sectionLE chunks a b || sectionLE chunks b a := by
  simp only [sectionLE, Bool.or_eq_true, decide_eq_true_eq]
  exact le_total _ _

theorem sectionOrder_pairwise (chunks : List ChunkModel) :
    (sectionOrder chunks).Pairwise (fun s t =>
      finalSectionScore chunks t ≤ finalSectionScore chunks s) := by
  rw [sectionOrder]
  have hs := List.sorted_mergeSort (sectionLE_trans chunks) (sectionLE_total chunks)
    ((chunks.map (·.sectionId)).dedup)
  exact hs.imp (fun h => by simpa [sectionLE] using h)

/-- C3: the emitted sections are ordered by non-increasing final section
score, and each emitted section keeps its member candidates in their
original fused-rank order (every group is a sublist of the fused chunk
list, never re-sorted). -/
theorem section_output_ordering (chunks : List ChunkModel) :
    (sectionOrder chunks).Pairwise (fun s t =>
      finalSectionScore chunks t ≤ finalSectionScore chunks s) ∧
    (∀ g ∈ GroupBySectionWithRank chunks, g.Sublist chunks) := by
  refine ⟨sectionOrder_pairwise chunks, ?_⟩
  intro g hg
  rw [GroupBySectionWithRank] at hg
  obtain ⟨s, _, rfl⟩ := List.mem_map.mp hg
  exact List.filter_sublist chunks

/-! ## Adjacency monotonicity -/

theorem chunkWeight_pos (i : Nat) : 0 < chunkWeight (i + 1) := by
  unfold chunkWeight W
  have : (0 : ℚ) < ((i + 1 : Nat) : ℚ) := by exact_mod_cast Nat.succ_pos i
  exact div_pos one_pos this

theorem adjTerm_nonneg (b : Bool) (i : Nat) :
    0 ≤ (if b = true then AdjacencyBonus * chunkWeight (i + 1) else 0) := by
  split
  · have hb : (0 : ℚ) < AdjacencyBonus := by norm_num [AdjacencyBonus]
    exact le_of_lt (mul_pos hb (chunkWeight_pos i))
  · exact le_refl 0

theorem headTerm_le (A A' : List ChunkModel) (s : String) (ch ch' : ChunkModel) (i : Nat)
    (hsec : ch.sectionId = ch'.sectionId)
    (hflag : ch'.sectionId = s → hasAdjacentWindow A' ch' = false) :
    (if ch'.sectionId = s then
        chunkWeight (i + 1) +
          (if hasAdjacentWindow A' ch' = true then AdjacencyBonus * chunkWeight (i + 1) else 0)
      else 0) ≤
    (if ch.sectionId = s then
        chunkWeight (i + 1) +
          (if hasAdjacentWindow A ch = true then AdjacencyBonus * chunkWeight (i + 1) else 0)
      else 0) := by
  by_cases hs : ch'.sectionId = s
  · rw [if_pos hs, if_pos (hsec.trans hs), hflag hs]
    simp only [Bool.false_eq_true, if_false, add_zero]
    exact le_add_of_nonneg_right (adjTerm_nonneg _ i)
  · rw [if_neg hs, if_neg (fun h => hs (hsec ▸ h))]

theorem rawFrom_le (A A' : List ChunkModel) (s : String) :
    ∀ (l l' : List ChunkModel) (i : Nat),
      l.map (fun c => c.sectionId) = l'.map (fun c => c.sectionId) →
      (∀ ch ∈ l', ch.sectionId = s → hasAdjacentWindow A' ch = false) →
      rawSectionScoreFrom A' s l' i ≤ rawSectionScoreFrom A s l i := by
  intro l
  induction l with
  | nil =>
    intro l' i hmap _
    cases l' with
    | nil => exact le_refl _
    | cons a l' => simp at hmap
  | cons ch rest ih =>
    intro l' i hmap hflag
    cases l' with
    | nil => simp at hmap
    | cons ch' rest' =>
      simp only [List.map_cons, List.cons.injEq] at hmap
      simp only [rawSectionScoreFrom]
      exact add_le_add
        (headTerm_le A A' s ch ch' i hmap.1 (hflag ch' (List.mem_cons_self _ _)))
        (ih rest' (i + 1) hmap.2 (fun c hc => hflag c (List.mem_cons_of_mem _ hc)))

theorem rawFrom_lt (A A' : List ChunkModel) (s : String) :
    ∀ (l l' : List ChunkModel) (i : Nat),
      l.map (fun c => c.sectionId) = l'.map (fun c => c.sectionId) →
      (∀ ch ∈ l', ch.sectionId = s → hasAdjacentWindow A' ch = false) →
      (∃ ch ∈ l, ch.sectionId = s ∧ hasAdjacentWindow A ch = true) →
      rawSectionScoreFrom A' s l' i < rawSectionScoreFrom A s l i := by
  intro l
  induction l with
  | nil =>
    intro l' i _ _ hw
    obtain ⟨ch, hch, _⟩ := hw
    exact absurd hch (List.not_mem_nil ch)
  | cons ch rest ih =>
    intro l' i hmap hflag hw
    cases l' with
    | nil => simp at hmap
    | cons ch' rest' =>
      simp only [List.map_cons, List.cons.injEq] at hmap
      simp only [rawSectionScoreFrom]
      obtain ⟨c0, hc0, hcs, hca⟩ := hw
      rcases List.mem_cons.mp hc0 with hhead | htail
      · subst hhead
        have hs' : ch'.sectionId = s := hmap.1 ▸ hcs
        apply add_lt_add_of_lt_of_le
        · rw [if_pos hs', if_pos hcs, hflag ch' (List.mem_cons_self _ _) hs', hca]
          simp only [Bool.false_eq_true, if_false, add_zero]
          have hb : (0 : ℚ) < AdjacencyBonus := by norm_num [AdjacencyBonus]
          exact lt_add_of_pos_right _ (mul_pos hb (chunkWeight_pos i))
        · exact rawFrom_le A A' s rest rest' (i + 1) hmap.2
            (fun c hc => hflag c (List.mem_cons_of_mem _ hc))
      · apply add_lt_add_of_le_of_lt
        · exact headTerm_le A A' s ch ch' i hmap.1 (hflag ch' (List.mem_cons_self _ _))
        · exact ih rest' (i + 1) hmap.2
            (fun c hc => hflag c (List.mem_cons_of_mem _ hc)) ⟨c0, htail, hcs, hca⟩

theorem memberCount_eq_of_map_eq (chunks chunks' : List ChunkModel) (s : String)
    (h : chunks.map (fun c => c.sectionId) = chunks'.map (fun c => c.sectionId)) :
    memberCount chunks s = memberCount chunks' s := by
  have hc := congrArg (List.countP (fun x => x == s)) h
  rw [List.countP_map, List.countP_map] at hc
  unfold memberCount
  rw [← List.countP_eq_length_filter, ← List.countP_eq_length_filter]
  exact hc

theorem applyDiminishing_strict_mono (a b : ℚ) (n : Nat) (h : a < b) :
    applyDiminishing a n < applyDiminishing b n := by
  unfold applyDiminishing
  split
  · next hn =>
    have h1 : (1 : ℚ) < (n : ℚ) := by exact_mod_cast hn
    have hpos : (0 : ℚ) < 1 + Lambda * ((n : ℚ) - 1) := by
      unfold Lambda
      nlinarith
    exact div_lt_div_of_pos_right h hpos
  · exact h

theorem ranked_before_of_gt (chunks : List ChunkModel)
    (i j : Fin (sectionOrder chunks).length)
    (h : finalSectionScore chunks ((sectionOrder chunks).get j) <
      finalSectionScore chunks ((sectionOrder chunks).get i)) : i < j := by
  rcases lt_trichotomy i j with hij | hij | hij
  · exact hij
  · exact absurd (hij ▸ h) (lt_irrefl _)
  · exact absurd h
      (not_lt.mpr (List.pairwise_iff_get.mp (sectionOrder_pairwise chunks) j i hij))

/-- C4: for two runs whose fused candidates occupy identical section
positions (hence identical member counts per section), if section `s` has a
member with an adjacent window (index ±1, same section) in the first run
and none in the second, then `s`'s final score in the first run is strictly
higher, and a section scoring strictly higher is always ranked before any
strictly lower-scoring one. -/
theorem adjacency_monotonic (chunks chunks' : List ChunkModel) (s : String)
    (hmap : chunks.map (fun c => c.sectionId) = chunks'.map (fun c => c.sectionId))
    (hadj : ∃ ch ∈ chunks, ch.sectionId = s ∧ hasAdjacentWindow chunks ch = true)
    (hnoadj : ∀ ch ∈ chunks', ch.sectionId = s → hasAdjacentWindow chunks' ch = false) :
    finalSectionScore chunks' s < finalSectionScore chunks s ∧
    (∀ i j : Fin (sectionOrder chunks).length,
      (sectionOrder chunks).get i = s →
      finalSectionScore chunks ((sectionOrder chunks).get j) <
        finalSectionScore chunks s → i < j) := by
  constructor
  · unfold finalSectionScore
    rw [← memberCount_eq_of_map_eq chunks chunks' s hmap]
    exact applyDiminishing_strict_mono _ _ _
      (rawFrom_lt chunks chunks' s chunks chunks' 0 hmap hnoadj hadj)
  · intro i j hi hj
    exact ranked_before_of_gt chunks i j (by rw [hi]; exact hj)

theorem adjacency_monotonic_witness :
    finalSectionScore [sampleS0, sampleS5] "S" < finalSectionScore [sampleS0, sampleS1] "S" :=
  (adjacency_monotonic [sampleS0, sampleS1] [sampleS0, sampleS5] "S"
    (by decide) (by decide) (by decide)).1

/-- C5: for sections with more than one member the final score equals
`rawScore / (1 + Lambda * (memberCount - 1))` with `Lambda = 0.10`; the
divisor is not applied to single-member sections; and a section whose three
members contribute a positive weight `w` each (raw score `3w`, no adjacency
bonus) scores strictly between `w` and `3w`. -/
theorem diminishing_returns (chunks : List ChunkModel) (s : String) (w : ℚ) (hw : 0 < w) :
    (1 < memberCount chunks s →
      finalSectionScore chunks s =
        rawSectionScore chunks s / (1 + Lambda * ((memberCount chunks s : ℚ) - 1))) ∧
    (memberCount chunks s = 1 → finalSectionScore chunks s = rawSectionScore chunks s) ∧
    (w < applyDiminishing (3 * w) 3 ∧ applyDiminishing (3 * w) 3 < 3 * w) := by
  refine ⟨?_, ?_, ?_, ?_⟩
  · intro h
    unfold finalSectionScore applyDiminishing
    rw [if_pos h]
  · intro h
    unfold finalSectionScore applyDiminishing
    rw [h, if_neg (by norm_num)]
  · unfold applyDiminishing Lambda
    rw [if_pos (by norm_num : 1 < 3)]
    have h1 : (1 + 1 / 10 * (((3 : Nat) : ℚ) - 1)) = 6 / 5 := by norm_num
    rw [h1, lt_div_iff₀ (by norm_num : (0 : ℚ) < 6 / 5)]
    nlinarith
  · unfold applyDiminishing Lambda
    rw [if_pos (by norm_num : 1 < 3)]
    have h1 : (1 + 1 / 10 * (((3 : Nat) : ℚ) - 1)) = 6 / 5 := by norm_num
    rw [h1, div_lt_iff₀ (by norm_num : (0 : ℚ) < 6 / 5)]
    nlinarith

theorem diminishing_returns_witness :
    (1 < memberCount [sampleS0, sampleS1] "S" →
      finalSectionScore [sampleS0, sampleS1] "S" =
        rawSectionScore [sampleS0, sampleS1] "S" /
          (1 + Lambda * ((memberCount [sampleS0, sampleS1] "S" : ℚ) - 1))) ∧
    (memberCount [sampleS0, sampleS1] "S" = 1 →
      finalSectionScore [sampleS0, sampleS1] "S" = rawSectionScore [sampleS0, sampleS1] "S") ∧
    ((1 : ℚ) < applyDiminishing (3 * 1) 3 ∧ applyDiminishing (3 * 1) 3 < 3 * 1) :=
  diminishing_returns [sampleS0, sampleS1] "S" 1 one_pos

/-! ## Error handling and the output stream -/

theorem errorUnit_error_ne (te ve : String) : (errorUnit te ve).error ≠ "" := by
  intro h
  have hl := congrArg String.length h
  have h20 : ("text search failed: " : String).length = 20 := by decide
  have h24 : ("; vector search failed: " : String).length = 24 := by decide
  have h0 : ("" : String).length = 0 := rfl
  simp only [errorUnit, String.length_append, h20, h24, h0] at hl
  omega

theorem assembleUnit_error (g : List ChunkModel) : (assembleUnit g).error = "" := by
  cases g <;> rfl

/-- C6: when both backends fail, the output stream is exactly one unit,
that unit has a non-empty error and empty sentences, and nothing follows
it. -/
theorem total_failure_single_error_unit (te ve : String) :
    run (Except.error te) (Except.error ve) = [errorUnit te ve] ∧
    (errorUnit te ve).error ≠ "" ∧
    (errorUnit te ve).sentences = [] ∧
    (run (Except.error te) (Except.error ve)).length = 1 :=
  ⟨rfl, errorUnit_error_ne te ve, rfl, rfl⟩

theorem mergeSort_ne_nil {α : Type} (l : List α) (le : α → α → Bool) (h : l ≠ []) :
    l.mergeSort le ≠ [] := by
  intro h0
  have hl := congrArg List.length h0
  rw [List.length_mergeSort] at hl
  exact h (List.length_eq_zero.mp hl)

theorem findChunk_isSome_of_mem (cache : List ChunkModel) (d : String)
    (h : ∃ c ∈ cache, c.id = d) : (findChunk cache d).isSome := by
  obtain ⟨c, hc, hid⟩ := h
  unfold findChunk
  rw [List.find?_isSome]
  exact ⟨c, hc, by simp [hid]⟩

theorem mem_topCandidates (t v : List String) (d : String) (h : d ∈ topCandidates t v) :
    d ∈ t ++ v := by
  unfold topCandidates at h
  have h1 := List.mem_of_mem_take h
  rw [List.mem_mergeSort, List.mem_dedup] at h1
  exact h1

theorem topCandidates_ne_nil (t v : List String) (h : t ++ v ≠ []) :
    topCandidates t v ≠ [] := by
  unfold topCandidates
  intro h0
  rcases List.take_eq_nil_iff.mp h0 with h1 | h1
  · exact absurd h1 (by norm_num [maxChunks])
  · exact mergeSort_ne_nil _ _ (fun hx => h ((List.dedup_eq_nil _).mp hx)) h1

theorem fusedChunks_ne_nil (th vh : List ChunkModel) (h : th ++ vh ≠ []) :
    fusedChunks th vh ≠ [] := by
  unfold fusedChunks
  have hids : th.map (fun c => c.id) ++ vh.map (fun c => c.id) ≠ [] := by
    rw [← List.map_append]
    simpa using h
  have htc := topCandidates_ne_nil _ _ hids
  cases htcs : topCandidates (th.map fun c => c.id) (vh.map fun c => c.id) with
  | nil => exact absurd htcs htc
  | cons d rest =>
    have hd : d ∈ th.map (fun c => c.id) ++ vh.map (fun c => c.id) :=
      mem_topCandidates _ _ d (htcs ▸ List.mem_cons_self _ _)
    rw [← List.map_append] at hd
    obtain ⟨c, hc, hcid⟩ := List.mem_map.mp hd
    have hs := findChunk_isSome_of_mem (th ++ vh) d ⟨c, hc, hcid⟩
    obtain ⟨c', hc'⟩ := Option.isSome_iff_exists.mp hs
    simp [htcs, List.filterMap_cons, hc']

theorem run_units_error_empty (th vh : List ChunkModel) :
    ∀ u ∈ run (Except.ok th) (Except.ok vh), u.error = "" := by
  intro u hu
  have hrun : run (Except.ok th) (Except.ok vh) =
      (GroupBySectionWithRank (fusedChunks th vh)).map assembleUnit := rfl
  rw [hrun] at hu
  obtain ⟨g, _, rfl⟩ := List.mem_map.mp hu
  exact assembleUnit_error g

theorem run_ok_ne_nil (th vh : List ChunkModel) (h : th ++ vh ≠ []) :
    run (Except.ok th) (Except.ok vh) ≠ [] := by
  have hf := fusedChunks_ne_nil th vh h
  intro h0
  have hmap : (GroupBySectionWithRank (fusedChunks th vh)).map assembleUnit = [] := h0
  rw [List.map_eq_nil_iff, GroupBySectionWithRank, List.map_eq_nil_iff, sectionOrder] at hmap
  exact mergeSort_ne_nil _ _
    (fun hx => hf (by simpa using (List.dedup_eq_nil _).mp hx)) hmap

/-- C7: when exactly one backend fails while the other returns at least one
candidate, the failing backend's rank list is treated as empty (zero RRF
contribution) — the output equals that of a run with an empty list from
the failing backend — the output is non-empty and derived solely from the
surviving backend, and no unit carries a non-empty error. -/
theorem partial_failure_degrades (hits : List ChunkModel) (e : String) (h : hits ≠ []) :
    run (Except.ok hits) (Except.error e) = run (Except.ok hits) (Except.ok []) ∧
    run (Except.error e) (Except.ok hits) = run (Except.ok []) (Except.ok hits) ∧
    run (Except.ok hits) (Except.error e) ≠ [] ∧
    run (Except.error e) (Except.ok hits) ≠ [] ∧
    (∀ u ∈ run (Except.ok hits) (Except.error e), u.error = "") ∧
    (∀ u ∈ run (Except.error e) (Except.ok hits), u.error = "") := by
  refine ⟨rfl, rfl, ?_, ?_, ?_, ?_⟩
  · exact run_ok_ne_nil hits [] (by simpa using h)
  · exact run_ok_ne_nil [] hits (by simpa using h)
  · exact fun u hu => run_units_error_empty hits [] u hu
  · exact fun u hu => run_units_error_empty [] hits u hu

theorem partial_failure_degrades_witness :
    run (Except.ok [sampleS0]) (Except.error sampleErr) =
      run (Except.ok [sampleS0]) (Except.ok []) ∧
    run (Except.error sampleErr) (Except.ok [sampleS0]) =
      run (Except.ok []) (Except.ok [sampleS0]) ∧
    run (Except.ok [sampleS0]) (Except.error sampleErr) ≠ [] ∧
    run (Except.error sampleErr) (Except.ok [sampleS0]) ≠ [] ∧
    (∀ u ∈ run (Except.ok [sampleS0]) (Except.error sampleErr), u.error = "") ∧
    (∀ u ∈ run (Except.error sampleErr) (Except.ok [sampleS0]), u.error = "") :=
  partial_failure_degrades [sampleS0] sampleErr (by simp)

/-- C8: when both backends succeed with zero candidates, the output stream
is empty — no unit at all, in particular no error unit. -/
theorem zero_results_empty_stream :
    run (Except.ok ([] : List ChunkModel)) (Except.ok ([] : List ChunkModel)) = [] := by
  have h1 : fusedChunks ([] : List ChunkModel) [] = [] := by
    unfold fusedChunks topCandidates
    simp
  show (GroupBySectionWithRank (fusedChunks [] [])).map assembleUnit = []
  rw [h1, GroupBySectionWithRank, sectionOrder]
  simp

theorem run_length_le (tr vr : Except String (List ChunkModel)) :
    (run tr vr).length ≤ maxChunks := by
  have hgen : ∀ th vh : List ChunkModel,
      ((GroupBySectionWithRank (fusedChunks th vh)).map assembleUnit).length ≤ maxChunks := by
    intro th vh
    rw [List.length_map, GroupBySectionWithRank, List.length_map, sectionOrder,
      List.length_mergeSort]
    calc ((fusedChunks th vh).map (fun c => c.sectionId)).dedup.length
        ≤ ((fusedChunks th vh).map (fun c => c.sectionId)).length :=
          ((fusedChunks th vh).map (fun c => c.sectionId)).dedup_sublist.length_le
      _ = (fusedChunks th vh).length := List.length_map _ _
      _ ≤ maxChunks := by
          unfold fusedChunks
          exact le_trans (List.length_filterMap_le _ _) (List.length_take_le _ _)
  cases tr with
  | error te =>
    cases vr with
    | error ve =>
      show (1 : Nat) ≤ maxChunks
      decide
    | ok vh => exact hgen [] vh
  | ok th =>
    cases vr with
    | error ve => exact hgen th []
    | ok vh => exact hgen th vh

/-- C9: the output stream of a (batch) run is finite — at most `maxChunks`
units per query execution — and in a list model it is closed after its
last element by construction. -/
theorem stream_finite_and_bounded :
    (∀ inputs, (runBatch inputs).length ≤ maxChunks * inputs.length) ∧
    (∀ textRes vecRes, (run textRes vecRes).length ≤ maxChunks) := by
  refine ⟨?_, run_length_le⟩
  intro inputs
  induction inputs with
  | nil => simp [runBatch]
  | cons p ps ih =>
    have h1 := run_length_le p.1 p.2
    simp only [runBatch, List.map_cons, List.flatten_cons, List.length_append,
      List.length_cons, maxChunks] at ih h1 ⊢
    omega

/-! ## Well-formedness of emitted units -/

theorem mem_fusedChunks (th vh : List ChunkModel) (c : ChunkModel)
    (h : c ∈ fusedChunks th vh) : c ∈ th ++ vh := by
  unfold fusedChunks at h
  obtain ⟨d, _, hf⟩ := List.mem_filterMap.mp h
  exact List.mem_of_find?_eq_some hf

theorem sectionOrder_mem (chunks : List ChunkModel) (s : String)
    (h : s ∈ sectionOrder chunks) : ∃ c ∈ chunks, c.sectionId = s := by
  rw [sectionOrder, List.mem_mergeSort, List.mem_dedup] at h
  obtain ⟨c, hc, hcs⟩ := List.mem_map.mp h
  exact ⟨c, hc, hcs⟩

theorem run_ok_unit_shape (th vh : List ChunkModel) :
    ∀ u ∈ run (Except.ok th) (Except.ok vh),
      ∃ lead rest, u = assembleUnit (lead :: rest) ∧ lead ∈ th ++ vh := by
  intro u hu
  have hrun : run (Except.ok th) (Except.ok vh) =
      (GroupBySectionWithRank (fusedChunks th vh)).map assembleUnit := rfl
  rw [hrun] at hu
  obtain ⟨g, hg, rfl⟩ := List.mem_map.mp hu
  rw [GroupBySectionWithRank] at hg
  obtain ⟨s, hs, rfl⟩ := List.mem_map.mp hg
  obtain ⟨c, hc, hcs⟩ := sectionOrder_mem _ _ hs
  have hmemf : c ∈ (fusedChunks th vh).filter (fun c => c.sectionId == s) :=
    List.mem_filter.mpr ⟨hc, by simp [hcs]⟩
  cases hfe : (fusedChunks th vh).filter (fun c => c.sectionId == s) with
  | nil => rw [hfe] at hmemf; exact absurd hmemf (List.not_mem_nil c)
  | cons lead rest =>
    have hleadf : lead ∈ (fusedChunks th vh).filter (fun c => c.sectionId == s) :=
      hfe ▸ List.mem_cons_self _ _
    have hlead : lead ∈ fusedChunks th vh := (List.mem_filter.mp hleadf).1
    exact ⟨lead, rest, rfl, mem_fusedChunks th vh lead hlead⟩

theorem run_ok_sentences_ne_nil (th vh : List ChunkModel) :
    ∀ u ∈ run (Except.ok th) (Except.ok vh), u.sentences ≠ [] := by
  intro u hu
  obtain ⟨lead, rest, rfl, _⟩ := run_ok_unit_shape th vh u hu
  simp [assembleUnit]

theorem run_ok_attr_title (th vh : List ChunkModel)
    (hgood : ∀ c ∈ th ++ vh, c.attribution ≠ "" ∧ c.title ≠ "") :
    ∀ u ∈ run (Except.ok th) (Except.ok vh), u.attribution ≠ "" ∧ u.title ≠ "" := by
  intro u hu
  obtain ⟨lead, rest, rfl, hlead⟩ := run_ok_unit_shape th vh u hu
  have hgl := hgood lead hlead
  exact ⟨hgl.1, hgl.2⟩

theorem run_error_error_units (te ve : String) :
    ∀ u ∈ run (Except.error te) (Except.error ve), u.error ≠ "" := by
  intro u hu
  have hr : run (Except.error te) (Except.error ve) = [errorUnit te ve] := rfl
  rw [hr] at hu
  rw [List.mem_singleton.mp hu]
  exact errorUnit_error_ne te ve

/-- The one-candidate evaluation of a run: a single text hit yields exactly
the unit assembled from that chunk. -/
theorem run_singleton (c : ChunkModel) :
    run (Except.ok [c]) (Except.ok []) = [assembleUnit [c]] := by
  have h1 : fusedChunks [c] [] = [c] := by
    unfold fusedChunks topCandidates findChunk
    simp [maxChunks]
  show (GroupBySectionWithRank (fusedChunks [c] [])).map assembleUnit = [assembleUnit [c]]
  rw [h1, GroupBySectionWithRank, sectionOrder]
  simp

/-- C10 counterexample: a chunk fetched with empty `attribution` and
`title` produces an error-free unit whose attribution and title are empty,
refuting the claim as stated. -/
theorem error_free_units_cex :
    ¬ (∀ u ∈ run (Except.ok [sampleBare]) (Except.ok []), u.error = "" →
        u.sentences ≠ [] ∧ u.attribution ≠ "" ∧ u.title ≠ "") := by
  intro h
  have hm : assembleUnit [sampleBare] ∈ run (Except.ok [sampleBare]) (Except.ok []) := by
    rw [run_singleton]
    exact List.mem_singleton_self _
  have h2 := h (assembleUnit [sampleBare]) hm rfl
  exact h2.2.1 rfl

/-- C10 (amended): every error-free unit emitted by a run has non-empty
sentences, unconditionally; and provided every fetched candidate has
non-empty attribution and title, each error-free unit also has non-empty
attribution and title. -/
theorem error_free_units_well_formed
    (textRes vecRes : Except String (List ChunkModel)) :
    (∀ u ∈ run textRes vecRes, u.error = "" → u.sentences ≠ []) ∧
    ((∀ c ∈ textRes.toOption.getD [] ++ vecRes.toOption.getD [],
        c.attribution ≠ "" ∧ c.title ≠ "") →
      ∀ u ∈ run textRes vecRes, u.error = "" →
        u.attribution ≠ "" ∧ u.title ≠ "") := by
  cases textRes with
  | error te =>
    cases vecRes with
    | error ve =>
      exact ⟨fun u hu herr => absurd herr (run_error_error_units te ve u hu),
        fun _ u hu herr => absurd herr (run_error_error_units te ve u hu)⟩
    | ok vh =>
      exact ⟨fun u hu _ => run_ok_sentences_ne_nil [] vh u hu,
        fun hgood u hu _ => run_ok_attr_title [] vh hgood u hu⟩
  | ok th =>
    cases vecRes with
    | error ve =>
      exact ⟨fun u hu _ => run_ok_sentences_ne_nil th [] u hu,
        fun hgood u hu _ => run_ok_attr_title th [] hgood u hu⟩
    | ok vh =>
      exact ⟨fun u hu _ => run_ok_sentences_ne_nil th vh u hu,
        fun hgood u hu _ => run_ok_attr_title th vh hgood u hu⟩

theorem error_free_units_well_formed_witness :
    (∀ u ∈ run (Except.ok [sampleGood]) (Except.ok []), u.error = "" →
      u.sentences ≠ []) ∧
    (∀ u ∈ run (Except.ok [sampleGood]) (Except.ok []), u.error = "" →
      u.attribution ≠ "" ∧ u.title ≠ "") :=
  ⟨(error_free_units_well_formed (Except.ok [sampleGood]) (Except.ok [])).1,
   (error_free_units_well_formed (Except.ok [sampleGood]) (Except.ok [])).2 (by decide)⟩

end MedicineRag
